import Mathlib

/-!
A verification development for the `dbreport` report generator
(`src/dbreport/dbreport.py`).  The Python code is shallowly embedded:
Python dicts (which preserve insertion order and have unique keys) are
modelled as association lists `List (String × α)` with first-match lookup,
`dict.setdefault` and `dict[k] = v` as explicit operations; JSON-shaped
layout values are modelled by the inductive type `JValue`; code that can
raise exceptions is modelled in `Except String`.  Filesystem and database
collaborators are passed in explicitly as finite data.
-/

namespace DBReport

/-! ## Python dict primitives over association lists -/

/-- `k in d` for a Python dict modelled as an association list. -/
def containsKey {α : Type} : List (String × α) → String → Bool
  | [], _ => false
  | kv :: rest, k => kv.1 == k || containsKey rest k

/-- `d[k]` lookup (first match; Python dicts never hold duplicate keys). -/
def lookupKey {α : Type} : List (String × α) → String → Option α
  | [], _ => none
  | kv :: rest, k => if kv.1 == k then some kv.2 else lookupKey rest k

/-- `d.setdefault(k, v)`: insert `(k, v)` at the end iff `k` is absent. -/
def setdefaultKey {α : Type} (l : List (String × α)) (k : String) (v : α) :
    List (String × α) :=
  if containsKey l k then l else l ++ [(k, v)]

/-- `d[k] = v`: overwrite the value at `k` in place, appending if absent. -/
def assignKey {α : Type} : List (String × α) → String → α → List (String × α)
  | [], k, v => [(k, v)]
  | kv :: rest, k, v =>
    if kv.1 == k then (kv.1, v) :: rest else kv :: assignKey rest k v

/-! ## JSON-shaped layout values -/

/-- A JSON value as produced by `json.load` on a layout file: a string, a
list, or an object (Python dict with insertion order). -/
inductive JValue : Type where
  | str : String → JValue
  | lst : List JValue → JValue
  | obj : List (String × JValue) → JValue

/-- Whether a value is a Python dict (`isinstance(v, dict)`). -/
def JValue.isObj : JValue → Bool
  | .obj _ => true
  | _ => false

/-- Navigate a value along a list of keys (a path of dict lookups). -/
def getPath : JValue → List String → Option JValue
  | v, [] => some v
  | .obj items, k :: p =>
    match lookupKey items k with
    | some v => getPath v p
    | none => none
  | _, _ :: _ => none

mutual

/-- Well-formedness of a value as it arises from Python: every object has
pairwise-distinct keys (Python dicts cannot hold duplicates). -/
def wfJ : JValue → Bool
  | .obj items => decide ((items.map Prod.fst).Nodup) && wfItems items
  | _ => true

/-- All values of an object are well-formed. -/
def wfItems : List (String × JValue) → Bool
  | [] => true
  | kv :: rest => wfJ kv.2 && wfItems rest

end

/-! ## Layout merger: `Report.__set_defaults` (dbreport.py lines 184-200)

```python
for k, v in default_layout.items():
    user_layout.setdefault(k, v)
    if isinstance(v, dict):
        self.__set_defaults(v, user_layout[k])
return user_layout
```

`user_layout.setdefault(k, v)` raises `AttributeError` when `user_layout`
is not a dict, and `default_layout.items()` raises when `default_layout`
is not a dict; both become `.error`.  The in-place mutation of
`user_layout[k]` by the recursive call is modelled by re-assigning the
recursive result at key `k`. -/

/-- The `for k, v in default_layout.items()` loop body of
`Report.__set_defaults`, iterating over the remaining default items with
the current (mutated) user layout. -/
def setDefaultsItems : List (String × JValue) → JValue → Except String JValue
  | [], u => .ok u
  | (k, v) :: rest, u =>
    match u with
    | .obj uitems =>
      -- user_layout.setdefault(k, v); uk is user_layout[k] afterwards
      let st : List (String × JValue) × JValue :=
        match lookupKey uitems k with
        | some w => (uitems, w)
        | none => (uitems ++ [(k, v)], v)
      match v with
      | .obj vitems => do
        let merged ← setDefaultsItems vitems st.2
        setDefaultsItems rest (.obj (assignKey st.1 k merged))
      | _ => setDefaultsItems rest (.obj st.1)
    | _ => .error "AttributeError: object has no attribute setdefault"

/-- `Report.__set_defaults(default_layout, user_layout)`. -/
def setDefaults (default_layout user_layout : JValue) : Except String JValue :=
  match default_layout with
  | .obj items => setDefaultsItems items user_layout
  | _ => .error "AttributeError: object has no attribute items"

/-! ## View catalog: `Report.__get_views` / `Report.views` (lines 145-182)

The database collaborator is modelled by the finite list of view names it
holds; `SELECT name FROM sqlite_master WHERE TYPE = "view" ORDER BY name`
returns those names sorted lexicographically. -/

/-- `Report.__get_views`: all view names of the database, sorted by name
(the `ORDER BY name` of the SQL query). -/
def getViews (db : List String) : List String :=
  db.mergeSort (fun a b => a ≤ b)

/-- The ignore-list filter of the `Report.views` property:
`[v for v in self.__get_views() if v not in self.ignore]`. -/
def filterIgnored (allViews ignore : List String) : List String :=
  allViews.filter (fun v => !(ignore.contains v))

/-! ## Category resolution (lines 85-106 and 279-323) -/

/-- Membership in the Python set `categorized_views`, built in
`Report.__add_misc_category` by `categorized_views.update(k)` over all
category value lists; the set is modelled by its membership predicate. -/
def isCategorized (categories : List (String × List String)) (view : String) :
    Bool :=
  categories.any (fun kv => kv.2.contains view)

/-- `Report.__add_misc_category(categories, views)` (lines 279-311):
collect the views not listed in any category, in `views` order, and if
that list is non-empty `setdefault` it under the key `"Misc"`.
(`copy.deepcopy` is the identity on values.) -/
def addMiscCategory (categories : List (String × List String))
    (views : List String) : List (String × List String) :=
  let miscViews := views.filter (fun view => !(isCategorized categories view))
  if miscViews.isEmpty then categories
  else setdefaultKey categories "Misc" miscViews

/-- The error message of the `categories` setter (lines 103-105):
`f"given category item '{entry}' does not have a report"`. -/
def categoryErrMsg (entry : String) : String :=
  "given category item '" ++ entry ++ "' does not have a report"

/-- The inner `for entry in entries` loop of the `categories` setter
(lines 101-105): raise on the first entry that is not a view. -/
def validateEntries (views : List String) : List String → Except String Unit
  | [] => .ok ()
  | entry :: rest =>
    if views.contains entry then validateEntries views rest
    else .error (categoryErrMsg entry)

/-- The validation loop of the `categories.setter` (lines 91-105): every
entry of every category value list must be in `self.views`.  The
`isinstance` checks of the setter are enforced statically by the types of
the embedding. -/
def validateCategories (views : List String) :
    List (String × List String) → Except String Unit
  | [] => .ok ()
  | (_, entries) :: rest => do
    validateEntries views entries
    validateCategories views rest

/-! ## Ignore list: the `ignore.setter` (lines 126-135) -/

/-- The error message of the `ignore` setter (lines 131-134). -/
def ignoreErrMsg (value : String) : String :=
  "Cannot update ignore list since '" ++ value ++ "' is not a view"

/-- The validation loop of the `ignore.setter`: every value must be in
`self.__get_views()`, raising on the first one that is not. -/
def checkIgnoreValues (db : List String) : List String → Except String Unit
  | [] => .ok ()
  | value :: rest =>
    if (getViews db).contains value then checkIgnoreValues db rest
    else .error (ignoreErrMsg value)

/-- The `ignore.setter`: validate, then store the given list. -/
def setIgnore (db : List String) (values : List String) :
    Except String (List String) := do
  checkIgnoreValues db values
  .ok values

/-! ## Session construction and rendering -/

/-- The state a successfully constructed `Report` holds, restricted to
what the claims are about: the database's view names, the ignore list and
the resolved categories. -/
structure Session : Type where
  allViews : List String
  ignore : List String
  categories : List (String × List String)

/-- The `Report.views` property on a session. -/
def Session.views (s : Session) : List String :=
  filterIgnored s.allViews s.ignore

/-- The category-and-ignore part of `Report.__init__` (lines 36-39): set
`self.ignore` through its validating setter, then
`self.categories = self.__get_categories()` which adds the `Misc`
category over `self.views` and validates through the `categories` setter.
Filesystem and template initialisation is I/O plumbing outside the model. -/
def initSession (db : List String) (ignoreArg : List String)
    (layoutCategories : List (String × List String)) :
    Except String Session := do
  let ign ← setIgnore db ignoreArg
  let sess : Session := ⟨getViews db, ign, []⟩
  let cats := addMiscCategory layoutCategories sess.views
  validateCategories sess.views cats
  .ok ⟨getViews db, ign, cats⟩

/-- The `views` argument of `Report.render`: `None`, a single view-name
string, or a list of view names. -/
inductive ViewsArg : Type where
  | noneArg : ViewsArg
  | strArg : String → ViewsArg
  | listArg : List String → ViewsArg

/-- `Report.render(views)` (lines 408-437): normalise the argument (a
string becomes a one-element list, `None` becomes `self.views`), then
build the `reports` dict with `reports.setdefault(view, html)` per view.
The template renderer is an external collaborator, modelled by the
function `htmlOf` from a view name to its rendered report. -/
def render (sess : Session) (htmlOf : String → String) (views : ViewsArg) :
    List (String × String) :=
  let vs : List String :=
    match views with
    | .strArg s => [s]
    | .noneArg => sess.views
    | .listArg l => l
  vs.foldl (fun reports view => setdefaultKey reports view (htmlOf view)) []

/-! ## Path resolver: `Report.__expand_paths` (lines 202-242)

The filesystem collaborator (`os.path.isdir`, `os.listdir`) is passed in
as data.  The POSIX path primitives `os.path.join`, `os.path.abspath` and
`str.split(os.pathsep)` are modelled below (`os.pathsep` is `":"`;
`abspath` is modelled without `..`/`.` normalisation, which the claims do
not touch). -/

/-- Filesystem collaborator: directory test and directory listing
(`os.listdir` order is the filesystem listing order). -/
structure FS : Type where
  isdir : String → Bool
  listdir : String → List String

/-- A POSIX path is absolute iff it starts with a slash
(`os.path.isabs`). -/
def isAbs (p : String) : Bool :=
  match p.toList with
  | '/' :: _ => true
  | _ => false

/-- Two-argument `os.path.join` on POSIX: an absolute second component
discards the first; otherwise concatenate with a single separator. -/
def joinTwo (a b : String) : String :=
  if isAbs b then b
  else if a = "" then b
  else if a.toList.getLast? = some '/' then a ++ b
  else a ++ "/" ++ b

/-- `os.path.join(base, *dirs)`: fold `joinTwo` over the segments. -/
def joinMany (base : String) (parts : List String) : String :=
  parts.foldl joinTwo base

/-- Split a character list at every occurrence of `sep`. -/
def splitCharList (sep : Char) : List Char → List (List Char)
  | [] => [[]]
  | c :: rest =>
    let r := splitCharList sep rest
    if c = sep then [] :: r
    else
      match r with
      | h :: t => (c :: h) :: t
      | [] => [[c]]

/-- `path.split(os.pathsep)` with `os.pathsep = ":"` on POSIX. -/
def splitSep (s : String) : List String :=
  (splitCharList ':' s.toList).map (fun cs => String.mk cs)

/-- `os.path.abspath`: prepend the current working directory when the
path is not already absolute. -/
def abspath (cwd p : String) : String :=
  if isAbs p then p else joinTwo cwd p

/-- The resolved absolute path of one raw path string:
`os.path.abspath(os.path.join(base_path, *path.split(os.pathsep)))`. -/
def resolvePath (cwd base p : String) : String :=
  abspath cwd (joinMany base (splitSep p))

/-- One element of a list-valued paths entry; Python calls `.split` on
it, so a non-string element raises `AttributeError`. -/
def resolveListElem (cwd base : String) : JValue → Except String String
  | .str p => .ok (resolvePath cwd base p)
  | _ => .error "AttributeError: object has no attribute split"

/-- The `for key in input_paths` loop of `Report.__expand_paths`,
accumulating the `layout_paths` dict.  Per entry:
an empty-string value is kept via `setdefault`; a list value is replaced
by the list of resolved elements; otherwise the string is resolved,
`setdefault`-ed, and, when the resolved path is a directory and the key
is not `"report_dir"`, overwritten with the `os.listdir` contents joined
onto the directory (or the bare directory path when the listing is
empty). -/
def expandPathsAux (fs : FS) (cwd base : String) :
    List (String × JValue) → List (String × JValue) →
    Except String (List (String × JValue))
  | acc, [] => .ok acc
  | acc, (key, v) :: rest =>
    match v with
    | .lst l => do
      let resolved ← l.mapM (resolveListElem cwd base)
      expandPathsAux fs cwd base
        (assignKey acc key (.lst (resolved.map JValue.str))) rest
    | .str p =>
      -- `input_paths[key] == ""` can hold only for a string value, so the
      -- source's leading empty-string test is folded into this branch
      if p = "" then
        expandPathsAux fs cwd base (setdefaultKey acc key (.str "")) rest
      else
        let fullPath := resolvePath cwd base p
        let acc1 := setdefaultKey acc key (.str fullPath)
        if fs.isdir fullPath && !(key == "report_dir") then
          let files := (fs.listdir fullPath).map (fun f => joinTwo fullPath f)
          if files.isEmpty then
            expandPathsAux fs cwd base (assignKey acc1 key (.str fullPath)) rest
          else
            expandPathsAux fs cwd base
              (assignKey acc1 key (.lst (files.map JValue.str))) rest
        else
          expandPathsAux fs cwd base acc1 rest
    | _ => .error "AttributeError: object has no attribute split"

/-- `Report.__expand_paths(input_paths, base_path)`. -/
def expandPaths (fs : FS) (cwd : String) (input_paths : List (String × JValue))
    (base_path : String) : Except String (List (String × JValue)) :=
  expandPathsAux fs cwd base_path [] input_paths

/-- `layout["paths"] = self.__expand_paths(layout["paths"], base)` for one
layout: a missing `"paths"` key raises `KeyError`, a non-object value
raises when iterated. -/
def expandLayoutPaths (fs : FS) (cwd : String) (layout : JValue)
    (base : String) : Except String JValue :=
  match layout with
  | .obj items =>
    match lookupKey items "paths" with
    | some (.obj pathItems) => do
      let expanded ← expandPaths fs cwd pathItems base
      .ok (.obj (assignKey items "paths" (.obj expanded)))
    | some _ => .error "TypeError: paths is not a dict"
    | none => .error "KeyError: paths"
  | _ => .error "TypeError: layout is not a dict"

/-- `Report.__get_layout(user_path, kwargs)` (lines 244-277).  The two
layout files are passed as parsed values: `defaultLayout` is the content
of the packaged `templates/layout.json` with base directory
`defaultBase = os.path.dirname(__file__)`; a user layout file is passed
as `some (base, content)` with `base = os.path.dirname(user_path)`.
Faithful to the source, the expansion loop is
`for layout, base in zip(layouts, bases)`, and when `user_path is None`
the lists are `layouts = [default, kwargs]` and `bases = [defaultBase]`,
so `zip` truncates and the kwargs layout is never expanded. -/
def getLayout (fs : FS) (cwd : String) (defaultLayout : JValue)
    (defaultBase : String) (userLayout : Option (String × JValue))
    (kwargs : JValue) : Except String JValue :=
  match userLayout with
  | some (userBase, userContent) => do
    let d ← expandLayoutPaths fs cwd defaultLayout defaultBase
    let u ← expandLayoutPaths fs cwd userContent userBase
    setDefaults d u
  | none => do
    let d ← expandLayoutPaths fs cwd defaultLayout defaultBase
    setDefaults d kwargs

/-! ## String containment (used to state what an error message names) -/

/-- `needle` starts the character list `hay`. -/
def startsWithChars : List Char → List Char → Bool
  | [], _ => true
  | _ :: _, [] => false
  | a :: as, b :: bs => a == b && startsWithChars as bs

/-- `needle` occurs contiguously somewhere in `hay`. -/
def hasSubChars (needle : List Char) : List Char → Bool
  | [] => startsWithChars needle []
  | c :: rest => startsWithChars needle (c :: rest) || hasSubChars needle rest

/-- The string `msg` mentions `name` (contains it as a substring). -/
def mentionsName (msg name : String) : Bool :=
  hasSubChars name.toList msg.toList

/-- A filesystem with no directories at all. -/
def fsEmpty : FS :=
  ⟨fun _ => false, fun _ => []⟩

mutual

/-- Shape compatibility of a default value with the user value found (or
not found) at the same key: a non-empty default mapping needs the user
value, when present, to be a mapping as well, recursively. -/
def compatEntry : JValue → Option JValue → Bool
  | .obj vitems, some (.obj uitems) => compatItems vitems uitems
  | .obj vitems, some _ => vitems.isEmpty
  | .obj _, none => true
  | _, _ => true

/-- Shape compatibility of every default item with the user dict. -/
def compatItems : List (String × JValue) → List (String × JValue) → Bool
  | [], _ => true
  | (k, v) :: rest, uitems =>
    compatEntry v (lookupKey uitems k) && compatItems rest uitems

end

/-- Shape compatibility of a default and user layout: both mappings, and
every default item compatible with the user dict. -/
def compat : JValue → JValue → Bool
  | .obj ditems, .obj uitems => compatItems ditems uitems
  | _, _ => false

/-- `r` extends `u`: every key-path of `u` leads somewhere in `r`, and
every non-mapping (leaf) value of `u` is preserved unchanged in `r`. -/
def Extends (r u : JValue) : Prop :=
  ∀ p v, getPath u p = some v →
    ∃ w, getPath r p = some w ∧ (v.isObj = false → w = v)

/-- The claim-side description of the uncategorized views: the reportable
views absent from every declared category, in reportable-views order. -/
def uncategorizedViews (categories : List (String × List String))
    (views : List String) : List String :=
  views.filter (fun v => categories.all (fun kv => !(kv.2.contains v)))

/-- The value `__expand_paths` stores for a non-empty string-valued path
entry, depending on whether the resolved path is a directory and whether
the key is the report-output-directory key. -/
def expandedPathValue (fs : FS) (cwd base k p : String) : JValue :=
  let full := resolvePath cwd base p
  if fs.isdir full && !(k == "report_dir") then
    if (fs.listdir full).isEmpty then .str full
    else .lst (((fs.listdir full).map (fun f => joinTwo full f)).map JValue.str)
  else .str full

/-! ## Lemmas about the dict primitives -/

theorem containsKey_iff_mem {α : Type} (l : List (String × α)) (k : String) :
    containsKey l k = true ↔ k ∈ l.map Prod.fst := by
  induction l with
  | nil => simp [containsKey]
  | cons kv rest ih =>
    obtain ⟨a, b⟩ := kv
    by_cases h : a = k
    · subst h
      simp [containsKey]
    · simp [containsKey, h, Ne.symm h, ih]

theorem containsKey_eq_false_iff {α : Type} (l : List (String × α))
    (k : String) : containsKey l k = false ↔ k ∉ l.map Prod.fst := by
  constructor
  · intro h hm
    rw [(containsKey_iff_mem l k).mpr hm] at h
    cases h
  · intro h
    cases hc : containsKey l k
    · rfl
    · exact absurd ((containsKey_iff_mem l k).mp hc) h

theorem lookupKey_append {α : Type} (l₁ l₂ : List (String × α)) (k : String) :
    lookupKey (l₁ ++ l₂) k = (lookupKey l₁ k).or (lookupKey l₂ k) := by
  induction l₁ with
  | nil => simp [lookupKey]
  | cons kv rest ih =>
    obtain ⟨a, b⟩ := kv
    by_cases h : a = k
    · subst h
      simp [lookupKey]
    · simp [lookupKey, h, ih]

theorem lookupKey_setdefaultKey_ne {α : Type} (l : List (String × α))
    (k k' : String) (v : α) (h : k' ≠ k) :
    lookupKey (setdefaultKey l k v) k' = lookupKey l k' := by
  unfold setdefaultKey
  split
  · rfl
  · rw [lookupKey_append]
    have h1 : lookupKey [(k, v)] k' = none := by
      simp [lookupKey, Ne.symm h]
    rw [h1, Option.or_none]

theorem lookupKey_assignKey_self {α : Type} (l : List (String × α))
    (k : String) (v : α) : lookupKey (assignKey l k v) k = some v := by
  induction l with
  | nil => simp [assignKey, lookupKey]
  | cons kv rest ih =>
    obtain ⟨a, b⟩ := kv
    by_cases h : a = k
    · subst h
      simp [assignKey, lookupKey]
    · simp [assignKey, lookupKey, h, ih]

theorem lookupKey_assignKey_ne {α : Type} (l : List (String × α))
    (k k' : String) (v : α) (h : k' ≠ k) :
    lookupKey (assignKey l k v) k' = lookupKey l k' := by
  induction l with
  | nil => simp [assignKey, lookupKey, Ne.symm h]
  | cons kv rest ih =>
    obtain ⟨a, b⟩ := kv
    by_cases hk : a = k
    · subst hk
      simp [assignKey, lookupKey, Ne.symm h]
    · by_cases h2 : a = k'
      · subst h2
        simp [assignKey, lookupKey, hk]
      · simp [assignKey, lookupKey, hk, h2, ih]

theorem assignKey_of_lookup_self {α : Type} (l : List (String × α))
    (k : String) (v : α) (h : lookupKey l k = some v) :
    assignKey l k v = l := by
  induction l with
  | nil => simp [lookupKey] at h
  | cons kv rest ih =>
    obtain ⟨a, b⟩ := kv
    by_cases hk : a = k
    · subst hk
      simp [lookupKey] at h
      simp [assignKey, h]
    · simp only [lookupKey, show (a == k) = false by simpa using hk,
        Bool.false_eq_true, if_false] at h
      simp [assignKey, hk, ih h]

theorem lookupKey_of_nodup_mem {α : Type} {l : List (String × α)}
    {k : String} {v : α} (hnd : (l.map Prod.fst).Nodup) (hmem : (k, v) ∈ l) :
    lookupKey l k = some v := by
  induction l with
  | nil => simp at hmem
  | cons kv rest ih =>
    obtain ⟨a, b⟩ := kv
    simp only [List.map_cons, List.nodup_cons] at hnd
    rcases List.mem_cons.mp hmem with h | h
    · cases h
      simp [lookupKey]
    · have hak : a ≠ k := by
        intro he
        exact hnd.1 (he ▸ List.mem_map.mpr ⟨(k, v), h, rfl⟩)
      simp [lookupKey, hak, ih hnd.2 h]

/-! ## C1: Misc category derivation -/

/-- C1: the resolved categories equal the input categories plus, when the
list of reportable views absent from every declared category is non-empty
and `"Misc"` is not already a key, a synthetic `"Misc"` key holding
exactly those uncategorized views in reportable-views order; when every
reportable view is categorized, or when `"Misc"` is already declared, the
categories are returned unchanged. -/
theorem addMiscCategory_resolved (categories : List (String × List String))
    (views : List String) :
    addMiscCategory categories views =
      if uncategorizedViews categories views = [] then categories
      else if containsKey categories "Misc" then categories
      else categories ++ [("Misc", uncategorizedViews categories views)] := by
  have hp : views.filter (fun v => !(isCategorized categories v))
      = uncategorizedViews categories views := by
    unfold uncategorizedViews
    apply List.filter_congr
    intro v _
    simp [isCategorized, List.not_any_eq_all_not]
  by_cases he : uncategorizedViews categories views = []
  · simp [addMiscCategory, setdefaultKey, hp, List.isEmpty_iff, he]
  · simp [addMiscCategory, setdefaultKey, hp, List.isEmpty_iff, he]

/-! ## C2: category validation -/

/-- Helper: `validateEntries` succeeds iff every entry is a view, and an
error carries the message for some offending entry. -/
theorem validateEntries_spec (views : List String) (entries : List String) :
    (validateEntries views entries = .ok () ↔ ∀ e ∈ entries, e ∈ views) ∧
    (∀ msg, validateEntries views entries = .error msg →
      ∃ e ∈ entries, e ∉ views ∧ msg = categoryErrMsg e) := by
  induction entries with
  | nil =>
    constructor
    · simp [validateEntries]
    · intro msg hmsg
      simp [validateEntries] at hmsg
  | cons e rest ih =>
    by_cases h : views.contains e
    · have hmem : e ∈ views := by simpa using h
      have hstep : validateEntries views (e :: rest) =
          validateEntries views rest := by
        simp [validateEntries, hmem]
      constructor
      · rw [hstep, ih.1]
        constructor
        · intro hall e' he'
          rcases List.mem_cons.mp he' with he | hr
          · exact he ▸ hmem
          · exact hall e' hr
        · intro hall e' he'
          exact hall e' (List.mem_cons_of_mem _ he')
      · intro msg hmsg
        rw [hstep] at hmsg
        rcases ih.2 msg hmsg with ⟨e', he', hnv, hm⟩
        exact ⟨e', List.mem_cons_of_mem _ he', hnv, hm⟩
    · have hmem : e ∉ views := by simpa using h
      have hstep : validateEntries views (e :: rest) =
          .error (categoryErrMsg e) := by
        simp [validateEntries, hmem]
      constructor
      · rw [hstep]
        constructor
        · intro hc
          cases hc
        · intro hall
          exact absurd (hall e (List.mem_cons_self e rest)) hmem
      · intro msg hmsg
        rw [hstep] at hmsg
        cases hmsg
        exact ⟨e, List.mem_cons_self e rest, hmem, rfl⟩

/-- C2 (counterexample to the claim as stated): with reportable views
`["A", "B", "C"]` and categories `{"X": ["A", "D"]}`, validation fails
with the message `given category item 'D' does not have a report`, which
names the offending view `D` but does not mention the category `X`
anywhere. -/
theorem validateCategories_error_omits_category :
    validateCategories ["A", "B", "C"] [("X", ["A", "D"])]
      = .error (categoryErrMsg "D") ∧
    mentionsName (categoryErrMsg "D") "D" = true ∧
    mentionsName (categoryErrMsg "D") "X" = false :=
  ⟨rfl, rfl, rfl⟩

/-- C2 (amended): for every categories mapping containing, in any value
list, a view name that is not reportable, resolution fails with a
`ConfigurationError` (a `ValueError`) whose message names the offending
view — but not the category it appears in; when every listed view is
reportable, no error is raised. -/
theorem validateCategories_spec (categories : List (String × List String))
    (views : List String) :
    (validateCategories views categories = .ok () ↔
      ∀ kv ∈ categories, ∀ e ∈ kv.2, e ∈ views) ∧
    (∀ msg, validateCategories views categories = .error msg →
      ∃ kv ∈ categories, ∃ e ∈ kv.2, e ∉ views ∧ msg = categoryErrMsg e) := by
  induction categories with
  | nil =>
    constructor
    · simp [validateCategories]
    · intro msg hmsg
      simp [validateCategories] at hmsg
  | cons kv rest ih =>
    obtain ⟨c, entries⟩ := kv
    cases hve : validateEntries views entries with
    | ok u =>
      cases u
      have hok : ∀ e ∈ entries, e ∈ views :=
        (validateEntries_spec views entries).1.mp hve
      have hstep : validateCategories views ((c, entries) :: rest) =
          validateCategories views rest := by
        simp [validateCategories, hve, Bind.bind, Except.bind]
      constructor
      · rw [hstep, ih.1]
        constructor
        · intro hall kv' hkv'
          rcases List.mem_cons.mp hkv' with he | hr
          · intro e he'
            exact hok e (by rw [he] at he'; exact he')
          · exact hall kv' hr
        · intro hall kv' hkv'
          exact hall kv' (List.mem_cons_of_mem _ hkv')
      · intro msg hmsg
        rw [hstep] at hmsg
        rcases ih.2 msg hmsg with ⟨kv', hkv', e, he, hnv, hm⟩
        exact ⟨kv', List.mem_cons_of_mem _ hkv', e, he, hnv, hm⟩
    | error msg' =>
      have hbad : ∃ e ∈ entries, e ∉ views ∧ msg' = categoryErrMsg e :=
        (validateEntries_spec views entries).2 msg' hve
      have hstep : validateCategories views ((c, entries) :: rest) =
          .error msg' := by
        simp [validateCategories, hve, Bind.bind, Except.bind]
      constructor
      · rw [hstep]
        constructor
        · intro hc
          cases hc
        · intro hall
          rcases hbad with ⟨e, he, hnv, _⟩
          exact absurd (hall (c, entries) (List.mem_cons_self _ rest) e he) hnv
      · intro msg hmsg
        rw [hstep] at hmsg
        cases hmsg
        rcases hbad with ⟨e, he, hnv, hm⟩
        exact ⟨(c, entries), List.mem_cons_self _ rest, e, he, hnv, hm⟩

/-- Witness for `validateCategories_spec` at a concrete input. -/
theorem validateCategories_spec_witness :
    validateCategories ["A", "B"] [("X", ["A", "B"]), ("Y", ["B"])]
      = .ok () :=
  (validateCategories_spec [("X", ["A", "B"]), ("Y", ["B"])] ["A", "B"]).1.mpr
    (by decide)

/-! ## C5: reportable views -/

/-- Membership is invariant under the `ORDER BY name` sort. -/
theorem mem_getViews (db : List String) (v : String) :
    v ∈ getViews db ↔ v ∈ db :=
  (List.mergeSort_perm db (fun a b => a ≤ b)).mem_iff

/-- C5: the reportable views are the database's view names sorted
lexicographically with every ignored name removed: the full list is a
sorted permutation of the database's names, and the reportable list is a
sorted sublist of it containing exactly the non-ignored names. -/
theorem reportable_views_spec (db ignore : List String) :
    (getViews db).Perm db ∧
    List.Sorted (· ≤ ·) (getViews db) ∧
    List.Sorted (· ≤ ·) (filterIgnored (getViews db) ignore) ∧
    (filterIgnored (getViews db) ignore).Sublist (getViews db) ∧
    (∀ v, v ∈ filterIgnored (getViews db) ignore ↔ v ∈ db ∧ v ∉ ignore) := by
  have hperm : (getViews db).Perm db :=
    List.mergeSort_perm db (fun a b => a ≤ b)
  have hsorted : List.Sorted (· ≤ ·) (getViews db) :=
    List.sorted_mergeSort' db
  have hsub : (filterIgnored (getViews db) ignore).Sublist (getViews db) :=
    List.filter_sublist _
  refine ⟨hperm, hsorted, hsorted.sublist hsub, hsub, ?_⟩
  intro v
  unfold filterIgnored
  rw [List.mem_filter]
  simp [mem_getViews]

/-- Witness for `reportable_views_spec` at a concrete input (the spec's
ignore-filtering example). -/
theorem reportable_views_spec_witness :
    "A" ∈ filterIgnored (getViews ["A", "B", "C"]) ["B"] ↔
      "A" ∈ ["A", "B", "C"] ∧ "A" ∉ ["B"] :=
  ((reportable_views_spec ["A", "B", "C"] ["B"]).2.2.2.2) "A"

/-! ## C6: fail-fast validation of the ignore list -/

/-- Helper: `checkIgnoreValues` succeeds iff every listed name is a
database view, and an error carries the message for an offending name. -/
theorem checkIgnoreValues_spec (db : List String) (values : List String) :
    (checkIgnoreValues db values = .ok () ↔ ∀ v ∈ values, v ∈ db) ∧
    (∀ msg, checkIgnoreValues db values = .error msg →
      ∃ v ∈ values, v ∉ db ∧ msg = ignoreErrMsg v) := by
  induction values with
  | nil =>
    constructor
    · simp [checkIgnoreValues]
    · intro msg hmsg
      simp [checkIgnoreValues] at hmsg
  | cons v rest ih =>
    by_cases h : v ∈ db
    · have hc : v ∈ getViews db := (mem_getViews db v).mpr h
      have hstep : checkIgnoreValues db (v :: rest) =
          checkIgnoreValues db rest := by
        simp [checkIgnoreValues, hc]
      constructor
      · rw [hstep, ih.1]
        constructor
        · intro hall v' hv'
          rcases List.mem_cons.mp hv' with he | hr
          · exact he ▸ h
          · exact hall v' hr
        · intro hall v' hv'
          exact hall v' (List.mem_cons_of_mem _ hv')
      · intro msg hmsg
        rw [hstep] at hmsg
        rcases ih.2 msg hmsg with ⟨v', hv', hnd, hm⟩
        exact ⟨v', List.mem_cons_of_mem _ hv', hnd, hm⟩
    · have hc : v ∉ getViews db := fun hm => h ((mem_getViews db v).mp hm)
      have hstep : checkIgnoreValues db (v :: rest) =
          .error (ignoreErrMsg v) := by
        simp [checkIgnoreValues, hc]
      constructor
      · rw [hstep]
        constructor
        · intro hcon
          cases hcon
        · intro hall
          exact absurd (hall v (List.mem_cons_self v rest)) h
      · intro msg hmsg
        rw [hstep] at hmsg
        cases hmsg
        exact ⟨v, List.mem_cons_self v rest, h, rfl⟩

/-- C6: when the ignore list references a name that is not a database
view, session construction itself fails with a `ConfigurationError` (a
`ValueError`) — no session value exists for rendering to be attempted on,
so the error cannot be deferred to first use; and the `ignore` setter
accepts any list whose names are all database views. -/
theorem ignore_fail_fast (db ignoreArg : List String)
    (layoutCategories : List (String × List String)) :
    ((∃ v ∈ ignoreArg, v ∉ db) →
      ∃ msg, initSession db ignoreArg layoutCategories = .error msg) ∧
    ((∀ v ∈ ignoreArg, v ∈ db) → setIgnore db ignoreArg = .ok ignoreArg) := by
  constructor
  · intro hbad
    cases hc : checkIgnoreValues db ignoreArg with
    | ok u =>
      rcases hbad with ⟨v, hv, hnd⟩
      cases u
      exact absurd ((checkIgnoreValues_spec db ignoreArg).1.mp hc v hv) hnd
    | error msg =>
      refine ⟨msg, ?_⟩
      simp [initSession, setIgnore, hc, Bind.bind, Except.bind]
  · intro hgood
    have hc : checkIgnoreValues db ignoreArg = .ok () :=
      (checkIgnoreValues_spec db ignoreArg).1.mpr hgood
    simp [setIgnore, hc, Bind.bind, Except.bind]

/-- Witness for `ignore_fail_fast` at a concrete input. -/
theorem ignore_fail_fast_witness :
    ∃ msg, initSession ["A"] ["B"] [] = .error msg :=
  (ignore_fail_fast ["A"] ["B"] []).1 (by decide)

/-! ## C10: render argument dispatch -/

theorem containsKey_append {α : Type} (l₁ l₂ : List (String × α))
    (k : String) :
    containsKey (l₁ ++ l₂) k = (containsKey l₁ k || containsKey l₂ k) := by
  induction l₁ with
  | nil => simp [containsKey]
  | cons kv rest ih =>
    simp [containsKey, ih, Bool.or_assoc]

/-- Folding `reports.setdefault(view, html)` over views with pairwise
distinct names, none already present, appends one entry per view. -/
theorem foldl_setdefault_nodup (htmlOf : String → String) (vs : List String)
    (acc : List (String × String)) (hnd : vs.Nodup)
    (hdisj : ∀ v ∈ vs, containsKey acc v = false) :
    vs.foldl (fun reports view => setdefaultKey reports view (htmlOf view)) acc
      = acc ++ vs.map (fun v => (v, htmlOf v)) := by
  induction vs generalizing acc with
  | nil => simp
  | cons v rest ih =>
    simp only [List.foldl_cons]
    have hv : containsKey acc v = false := hdisj v (List.mem_cons_self v rest)
    have hset : setdefaultKey acc v (htmlOf v) = acc ++ [(v, htmlOf v)] := by
      simp [setdefaultKey, hv]
    rw [hset, ih (acc ++ [(v, htmlOf v)]) (List.nodup_cons.mp hnd).2]
    · simp
    · intro w hw
      rw [containsKey_append]
      have hw1 : containsKey acc w = false :=
        hdisj w (List.mem_cons_of_mem _ hw)
      have hwv : w ≠ v := by
        intro he
        exact (List.nodup_cons.mp hnd).1 (he ▸ hw)
      simp [hw1, containsKey, Ne.symm hwv]

/-- C10: `render` with a single view-name string behaves exactly as with
the one-element list of that name, and its result has that name as its
only key; `render` with no views argument produces exactly one entry per
reportable view. -/
theorem render_dispatch (sess : Session) (htmlOf : String → String)
    (s : String) :
    render sess htmlOf (.strArg s) = render sess htmlOf (.listArg [s]) ∧
    (render sess htmlOf (.strArg s)).map Prod.fst = [s] ∧
    (sess.views.Nodup →
      (render sess htmlOf .noneArg).map Prod.fst = sess.views) := by
  refine ⟨rfl, ?_, ?_⟩
  · simp [render, setdefaultKey, containsKey]
  · intro hnd
    have h := foldl_setdefault_nodup htmlOf sess.views [] hnd
      (fun v _ => rfl)
    simp only [render, h, List.nil_append, List.map_map]
    exact List.map_id sess.views

/-- Witness for `render_dispatch` at a concrete session. -/
theorem render_dispatch_witness :
    (render ⟨["A", "B"], [], []⟩ (fun v => v) .noneArg).map Prod.fst
      = Session.views ⟨["A", "B"], [], []⟩ :=
  (render_dispatch ⟨["A", "B"], [], []⟩ (fun v => v) "A").2.2 (by decide)

/-! ## C7 / C9 / C3: properties of the layout merger -/

theorem wfItems_head {kv : String × JValue} {rest : List (String × JValue)}
    (h : wfItems (kv :: rest) = true) : wfJ kv.2 = true := by
  simp only [wfItems, Bool.and_eq_true] at h
  exact h.1

theorem wfItems_tail {kv : String × JValue} {rest : List (String × JValue)}
    (h : wfItems (kv :: rest) = true) : wfItems rest = true := by
  simp only [wfItems, Bool.and_eq_true] at h
  exact h.2

theorem wfJ_obj_iff (items : List (String × JValue)) :
    wfJ (.obj items) = true ↔
      (items.map Prod.fst).Nodup ∧ wfItems items = true := by
  simp [wfJ]

/-- Core lemma behind merge idempotence: running the defaults loop with a
user dict in which every processed item is already present (with the same
value) leaves the user dict unchanged. -/
theorem setDefaultsItems_self (items full : List (String × JValue))
    (hwf : wfItems items = true)
    (hsub : ∀ kv ∈ items, lookupKey full kv.1 = some kv.2) :
    setDefaultsItems items (.obj full) = .ok (.obj full) := by
  suffices h : ∀ n (items full : List (String × JValue)), sizeOf items < n →
      wfItems items = true →
      (∀ kv ∈ items, lookupKey full kv.1 = some kv.2) →
      setDefaultsItems items (.obj full) = .ok (.obj full) by
    exact h (sizeOf items + 1) items full (Nat.lt_succ_self _) hwf hsub
  intro n
  induction n with
  | zero =>
    intro items full hsize
    exact absurd hsize (Nat.not_lt_zero _)
  | succ n ih =>
    intro items full hsize hwf hsub
    match items with
    | [] => rfl
    | (k, v) :: rest =>
      have hk : lookupKey full k = some v := hsub (k, v) (List.mem_cons_self _ _)
      have hrest : ∀ kv ∈ rest, lookupKey full kv.1 = some kv.2 :=
        fun kv hm => hsub kv (List.mem_cons_of_mem _ hm)
      have hszrest : sizeOf rest < n := by
        have : sizeOf ((k, v) :: rest) < n + 1 := hsize
        simp only [List.cons.sizeOf_spec, Prod.mk.sizeOf_spec] at this
        omega
      match v, hk, hwf with
      | .str s, hk, hwf =>
        simp only [setDefaultsItems, hk]
        exact ih rest full hszrest (wfItems_tail hwf) hrest
      | .lst l, hk, hwf =>
        simp only [setDefaultsItems, hk]
        exact ih rest full hszrest (wfItems_tail hwf) hrest
      | .obj vitems, hk, hwf =>
        have hwfv : wfJ (.obj vitems) = true := wfItems_head hwf
        obtain ⟨hndv, hwfv'⟩ := (wfJ_obj_iff vitems).mp hwfv
        have hszv : sizeOf vitems < n := by
          have : sizeOf ((k, JValue.obj vitems) :: rest) < n + 1 := hsize
          simp only [List.cons.sizeOf_spec, Prod.mk.sizeOf_spec,
            JValue.obj.sizeOf_spec] at this
          omega
        have hinner : setDefaultsItems vitems (.obj vitems) = .ok (.obj vitems) :=
          ih vitems vitems hszv hwfv'
            (fun kv hm => lookupKey_of_nodup_mem hndv hm)
        have hassign : assignKey full k (JValue.obj vitems) = full :=
          assignKey_of_lookup_self full k _ hk
        simp only [setDefaultsItems, hk, hinner, Bind.bind, Except.bind, hassign]
        exact ih rest full hszrest (wfItems_tail hwf) hrest

/-- C7: merging a well-formed layout mapping with itself as both default
and user yields the same layout: `merge(L, L) == L`. -/
theorem merge_idempotent (items : List (String × JValue))
    (h : wfJ (.obj items) = true) :
    setDefaults (.obj items) (.obj items) = .ok (.obj items) := by
  obtain ⟨hnd, hwf⟩ := (wfJ_obj_iff items).mp h
  exact setDefaultsItems_self items items hwf
    (fun kv hm => lookupKey_of_nodup_mem hnd hm)

/-- Witness for `merge_idempotent` on a concrete layout. -/
theorem merge_idempotent_witness :
    setDefaults (.obj [("paths", .obj [("database", .str "db.sqlite")]),
        ("ignore_views", .lst [.str "V"])])
      (.obj [("paths", .obj [("database", .str "db.sqlite")]),
        ("ignore_views", .lst [.str "V"])])
      = .ok (.obj [("paths", .obj [("database", .str "db.sqlite")]),
        ("ignore_views", .lst [.str "V"])]) :=
  merge_idempotent _ (by simp [wfJ, wfItems])

/-- C9 (counterexample): the merge fails (`AttributeError`, modelled as
`.error`) on a default `{"a": {"b": "1"}}` and user `{"a": "x"}`, although
default and user are both mappings — the claim's shape hypothesis
explicitly admits a non-mapping user value at a key whose default value
is a nested mapping. -/
theorem setDefaults_fails_on_leaf_collision :
    (setDefaults (.obj [("a", .obj [("b", .str "1")])])
        (.obj [("a", .str "x")])).toOption = none := rfl

theorem compatItems_mem {items uitems : List (String × JValue)}
    (h : compatItems items uitems = true) {kv : String × JValue}
    (hm : kv ∈ items) : compatEntry kv.2 (lookupKey uitems kv.1) = true := by
  induction items with
  | nil => simp at hm
  | cons kv' rest ih =>
    obtain ⟨a, b⟩ := kv'
    simp only [compatItems, Bool.and_eq_true] at h
    rcases List.mem_cons.mp hm with he | hr
    · subst he
      exact h.1
    · exact ih h.2 hr

theorem lookupKey_append_single_ne {α : Type} (l : List (String × α))
    (k k' : String) (v : α) (h : k' ≠ k) :
    lookupKey (l ++ [(k, v)]) k' = lookupKey l k' := by
  rw [lookupKey_append]
  have h1 : lookupKey [(k, v)] k' = none := by
    simp [lookupKey, Ne.symm h]
  rw [h1, Option.or_none]

/-- Main lemma for C9: a well-formed default-items list that is
shape-compatible with the user dict merges without failure, and the
merge leaves the user's entries at unprocessed keys untouched. -/
theorem setDefaultsItems_total (items uitems : List (String × JValue))
    (hnd : (items.map Prod.fst).Nodup) (hwf : wfItems items = true)
    (hc : ∀ kv ∈ items, compatEntry kv.2 (lookupKey uitems kv.1) = true) :
    ∃ r, setDefaultsItems items (.obj uitems) = .ok (.obj r) ∧
      (∀ k', k' ∉ items.map Prod.fst →
        lookupKey r k' = lookupKey uitems k') := by
  suffices h : ∀ n (items uitems : List (String × JValue)), sizeOf items < n →
      (items.map Prod.fst).Nodup → wfItems items = true →
      (∀ kv ∈ items, compatEntry kv.2 (lookupKey uitems kv.1) = true) →
      ∃ r, setDefaultsItems items (.obj uitems) = .ok (.obj r) ∧
        (∀ k', k' ∉ items.map Prod.fst →
          lookupKey r k' = lookupKey uitems k') by
    exact h (sizeOf items + 1) items uitems (Nat.lt_succ_self _) hnd hwf hc
  intro n
  induction n with
  | zero =>
    intro items uitems hsize
    exact absurd hsize (Nat.not_lt_zero _)
  | succ n ih =>
    intro items uitems hsize hnd hwf hc
    match items with
    | [] => exact ⟨uitems, rfl, fun _ _ => rfl⟩
    | (k, v) :: rest =>
      have hszrest : sizeOf rest < n := by
        have : sizeOf ((k, v) :: rest) < n + 1 := hsize
        simp only [List.cons.sizeOf_spec, Prod.mk.sizeOf_spec] at this
        omega
      have hndrest : (rest.map Prod.fst).Nodup :=
        (List.nodup_cons.mp (by simpa using hnd)).2
      have hknotin : k ∉ rest.map Prod.fst :=
        (List.nodup_cons.mp (by simpa using hnd)).1
      have hck : compatEntry v (lookupKey uitems k) = true :=
        hc (k, v) (List.mem_cons_self _ _)
      -- how the rest of the loop behaves on any state that agrees with
      -- `uitems` at every key other than `k`
      have hrest : ∀ (st : List (String × JValue)),
          (∀ k', k' ≠ k → lookupKey st k' = lookupKey uitems k') →
          ∃ r, setDefaultsItems rest (.obj st) = .ok (.obj r) ∧
            (∀ k', k' ∉ ((k, v) :: rest).map Prod.fst →
              lookupKey r k' = lookupKey uitems k') := by
        intro st hagree
        have hcrest : ∀ kv ∈ rest,
            compatEntry kv.2 (lookupKey st kv.1) = true := by
          intro kv hm
          have hne : kv.1 ≠ k := by
            intro he
            exact hknotin (he ▸ List.mem_map.mpr ⟨kv, hm, rfl⟩)
          rw [hagree kv.1 hne]
          exact hc kv (List.mem_cons_of_mem _ hm)
        obtain ⟨r, hr, hpres⟩ :=
          ih rest st hszrest hndrest (wfItems_tail hwf) hcrest
        refine ⟨r, hr, ?_⟩
        intro k' hk'
        have hk'rest : k' ∉ rest.map Prod.fst := by
          intro hmem
          exact hk' (by simp [hmem])
        have hk'ne : k' ≠ k := by
          intro he
          exact hk' (by simp [he])
        rw [hpres k' hk'rest, hagree k' hk'ne]
      match hlk : lookupKey uitems k, v, hck, hwf with
      | some (.obj uv), .obj vitems, hck, hwf =>
        -- nested mapping on both sides: recursive merge
        have hwfv := wfItems_head hwf
        obtain ⟨hndv, hwfv'⟩ := (wfJ_obj_iff vitems).mp hwfv
        have hszv : sizeOf vitems < n := by
          have : sizeOf ((k, JValue.obj vitems) :: rest) < n + 1 := hsize
          simp only [List.cons.sizeOf_spec, Prod.mk.sizeOf_spec,
            JValue.obj.sizeOf_spec] at this
          omega
        have hcv : ∀ kv ∈ vitems,
            compatEntry kv.2 (lookupKey uv kv.1) = true :=
          fun kv hm => compatItems_mem (by simpa [compatEntry] using hck) hm
        obtain ⟨m, hm, _⟩ := ih vitems uv hszv hndv hwfv' hcv
        obtain ⟨r, hr, hpres⟩ := hrest (assignKey uitems k (.obj m))
          (fun k' hne => lookupKey_assignKey_ne uitems k k' _ hne)
        refine ⟨r, ?_, hpres⟩
        simp only [setDefaultsItems, hlk, hm, Bind.bind, Except.bind]
        exact hr
      | some (.str s'), .obj vitems, hck, hwf =>
        -- user string leaf: compatibility forces the default mapping empty
        have hve : vitems = [] := by
          simpa [compatEntry, List.isEmpty_iff] using hck
        subst hve
        have hassign : assignKey uitems k (JValue.str s') = uitems :=
          assignKey_of_lookup_self uitems k _ hlk
        obtain ⟨r, hr, hpres⟩ := hrest uitems (fun _ _ => rfl)
        refine ⟨r, ?_, hpres⟩
        simp only [setDefaultsItems, hlk, Bind.bind, Except.bind, hassign]
        exact hr
      | some (.lst l'), .obj vitems, hck, hwf =>
        -- user list leaf: compatibility forces the default mapping empty
        have hve : vitems = [] := by
          simpa [compatEntry, List.isEmpty_iff] using hck
        subst hve
        have hassign : assignKey uitems k (JValue.lst l') = uitems :=
          assignKey_of_lookup_self uitems k _ hlk
        obtain ⟨r, hr, hpres⟩ := hrest uitems (fun _ _ => rfl)
        refine ⟨r, ?_, hpres⟩
        simp only [setDefaultsItems, hlk, Bind.bind, Except.bind, hassign]
        exact hr
      | none, .obj vitems, hck, hwf =>
        -- key absent from user: the default subtree merges with itself
        have hwfv := wfItems_head hwf
        obtain ⟨hndv, hwfv'⟩ := (wfJ_obj_iff vitems).mp hwfv
        have hinner : setDefaultsItems vitems (.obj vitems) = .ok (.obj vitems) :=
          setDefaultsItems_self vitems vitems hwfv'
            (fun kv hm => lookupKey_of_nodup_mem hndv hm)
        obtain ⟨r, hr, hpres⟩ :=
          hrest (assignKey (uitems ++ [(k, .obj vitems)]) k (.obj vitems))
            (fun k' hne => by
              rw [lookupKey_assignKey_ne _ k k' _ hne,
                lookupKey_append_single_ne _ k k' _ hne])
        refine ⟨r, ?_, hpres⟩
        simp only [setDefaultsItems, hlk, hinner, Bind.bind, Except.bind]
        exact hr
      | some w, .str s, hck, hwf =>
        obtain ⟨r, hr, hpres⟩ := hrest uitems (fun _ _ => rfl)
        exact ⟨r, by simp only [setDefaultsItems, hlk]; exact hr, hpres⟩
      | some w, .lst l, hck, hwf =>
        obtain ⟨r, hr, hpres⟩ := hrest uitems (fun _ _ => rfl)
        exact ⟨r, by simp only [setDefaultsItems, hlk]; exact hr, hpres⟩
      | none, .str s, hck, hwf =>
        obtain ⟨r, hr, hpres⟩ := hrest (uitems ++ [(k, .str s)])
          (fun k' hne => lookupKey_append_single_ne _ k k' _ hne)
        exact ⟨r, by simp only [setDefaultsItems, hlk]; exact hr, hpres⟩
      | none, .lst l, hck, hwf =>
        obtain ⟨r, hr, hpres⟩ := hrest (uitems ++ [(k, .lst l)])
          (fun k' hne => lookupKey_append_single_ne _ k k' _ hne)
        exact ⟨r, by simp only [setDefaultsItems, hlk]; exact hr, hpres⟩

/-- C9 (amended): the merge does not fail provided default and user are
mapping types at every level visited and, additionally, wherever the
(duplicate-free) default holds a non-empty nested mapping at a key, the
user value at that key — when present — is itself a mapping,
recursively. -/
theorem merge_total_on_compatible (d u : JValue) (hwf : wfJ d = true)
    (hc : compat d u = true) : ∃ r, setDefaults d u = .ok r := by
  rcases d with s | l | ditems
  · simp [compat] at hc
  · simp [compat] at hc
  · rcases u with s | l | uitems
    · simp [compat] at hc
    · simp [compat] at hc
    · obtain ⟨hnd, hwf'⟩ := (wfJ_obj_iff ditems).mp hwf
      obtain ⟨r, hr, _⟩ := setDefaultsItems_total ditems uitems hnd hwf'
        (fun kv hm => compatItems_mem (by simpa [compat] using hc) hm)
      exact ⟨.obj r, hr⟩

/-- Witness for `merge_total_on_compatible` at a concrete input. -/
theorem merge_total_on_compatible_witness :
    ∃ r, setDefaults (.obj [("a", .obj [("b", .str "1")]), ("c", .str "x")])
      (.obj [("a", .obj [("b", .str "2")])]) = .ok r :=
  merge_total_on_compatible _ _ (by simp [wfJ, wfItems])
    (by simp [compat, compatItems, compatEntry, lookupKey])

theorem extends_refl (v : JValue) : Extends v v :=
  fun _ w hp => ⟨w, hp, fun _ => rfl⟩

theorem extends_trans {a b c : JValue} (hab : Extends a b)
    (hbc : Extends b c) : Extends a c := by
  intro p v hp
  obtain ⟨w1, hw1, hl1⟩ := hbc p v hp
  obtain ⟨w2, hw2, hl2⟩ := hab p w1 hw1
  refine ⟨w2, hw2, fun hleaf => ?_⟩
  have h1 : w1 = v := hl1 hleaf
  have h2 : w2 = w1 := hl2 (by rw [h1]; exact hleaf)
  rw [h2, h1]

theorem extends_isSome {r u : JValue} (he : Extends r u) (q : List String)
    (hq : (getPath u q).isSome = true) : (getPath r q).isSome = true := by
  obtain ⟨x, hx⟩ := Option.isSome_iff_exists.mp hq
  obtain ⟨w, hw, _⟩ := he q x hx
  rw [hw]
  rfl

/-- A dict whose lookups all extend the lookups of another dict extends
it as a value. -/
theorem extends_obj_of_lookup (l l' : List (String × JValue))
    (h : ∀ k x, lookupKey l k = some x →
      ∃ y, lookupKey l' k = some y ∧ Extends y x) :
    Extends (.obj l') (.obj l) := by
  intro p v hp
  cases p with
  | nil =>
    simp only [getPath, Option.some.injEq] at hp
    subst hp
    exact ⟨.obj l', rfl, fun hleaf => by simp [JValue.isObj] at hleaf⟩
  | cons k q =>
    cases hlk : lookupKey l k with
    | none => simp [getPath, hlk] at hp
    | some x =>
      simp only [getPath, hlk] at hp
      obtain ⟨y, hy, hxy⟩ := h k x hlk
      obtain ⟨w, hw, hleaf⟩ := hxy q v hp
      refine ⟨w, ?_, hleaf⟩
      simp only [getPath, hy]
      exact hw

/-- Lemma A for C3: the merged result extends the user layout — every
user path is still present and every user leaf survives unchanged. -/
theorem setDefaultsItems_extends (items : List (String × JValue))
    (u r : JValue) (h : setDefaultsItems items u = .ok r) : Extends r u := by
  suffices hmain : ∀ n (items : List (String × JValue)) (u r : JValue),
      sizeOf items < n → setDefaultsItems items u = .ok r → Extends r u by
    exact hmain (sizeOf items + 1) items u r (Nat.lt_succ_self _) h
  intro n
  induction n with
  | zero =>
    intro items u r hsize
    exact absurd hsize (Nat.not_lt_zero _)
  | succ n ih =>
    intro items u r hsize h
    match items with
    | [] =>
      cases h
      exact extends_refl u
    | (k, v) :: rest =>
      have hszrest : sizeOf rest < n := by
        have : sizeOf ((k, v) :: rest) < n + 1 := hsize
        simp only [List.cons.sizeOf_spec, Prod.mk.sizeOf_spec] at this
        omega
      rcases u with s | l | uitems
      · simp [setDefaultsItems] at h
      · simp [setDefaultsItems] at h
      · cases hlk : lookupKey uitems k with
        | some w =>
          rcases v with s | l | vitems
          · simp only [setDefaultsItems, hlk] at h
            exact ih rest (.obj uitems) r hszrest h
          · simp only [setDefaultsItems, hlk] at h
            exact ih rest (.obj uitems) r hszrest h
          · have hszv : sizeOf vitems < n := by
              have : sizeOf ((k, JValue.obj vitems) :: rest) < n + 1 := hsize
              simp only [List.cons.sizeOf_spec, Prod.mk.sizeOf_spec,
                JValue.obj.sizeOf_spec] at this
              omega
            simp only [setDefaultsItems, hlk, Bind.bind] at h
            cases hin : setDefaultsItems vitems w with
            | error e =>
              rw [hin] at h
              simp [Except.bind] at h
            | ok m =>
              rw [hin] at h
              simp only [Except.bind] at h
              have hmw : Extends m w := ih vitems w m hszv hin
              have hmid : Extends (.obj (assignKey uitems k m))
                  (.obj uitems) := by
                apply extends_obj_of_lookup
                intro k' x hx
                by_cases hk' : k' = k
                · subst hk'
                  rw [hlk] at hx
                  cases hx
                  exact ⟨m, lookupKey_assignKey_self _ _ _, hmw⟩
                · refine ⟨x, ?_, extends_refl x⟩
                  rw [lookupKey_assignKey_ne _ _ _ _ hk']
                  exact hx
              exact extends_trans (ih rest _ r hszrest h) hmid
        | none =>
          rcases v with s | l | vitems
          · simp only [setDefaultsItems, hlk] at h
            have hmid : Extends (.obj (uitems ++ [(k, .str s)]))
                (.obj uitems) := by
              apply extends_obj_of_lookup
              intro k' x hx
              by_cases hk' : k' = k
              · subst hk'
                rw [hlk] at hx
                cases hx
              · refine ⟨x, ?_, extends_refl x⟩
                rw [lookupKey_append_single_ne _ _ _ _ hk']
                exact hx
            exact extends_trans (ih rest _ r hszrest h) hmid
          · simp only [setDefaultsItems, hlk] at h
            have hmid : Extends (.obj (uitems ++ [(k, .lst l)]))
                (.obj uitems) := by
              apply extends_obj_of_lookup
              intro k' x hx
              by_cases hk' : k' = k
              · subst hk'
                rw [hlk] at hx
                cases hx
              · refine ⟨x, ?_, extends_refl x⟩
                rw [lookupKey_append_single_ne _ _ _ _ hk']
                exact hx
            exact extends_trans (ih rest _ r hszrest h) hmid
          · have hszv : sizeOf vitems < n := by
              have : sizeOf ((k, JValue.obj vitems) :: rest) < n + 1 := hsize
              simp only [List.cons.sizeOf_spec, Prod.mk.sizeOf_spec,
                JValue.obj.sizeOf_spec] at this
              omega
            simp only [setDefaultsItems, hlk, Bind.bind] at h
            cases hin : setDefaultsItems vitems (.obj vitems) with
            | error e =>
              rw [hin] at h
              simp [Except.bind] at h
            | ok m =>
              rw [hin] at h
              simp only [Except.bind] at h
              have hmid : Extends
                  (.obj (assignKey (uitems ++ [(k, .obj vitems)]) k m))
                  (.obj uitems) := by
                apply extends_obj_of_lookup
                intro k' x hx
                by_cases hk' : k' = k
                · subst hk'
                  rw [hlk] at hx
                  cases hx
                · refine ⟨x, ?_, extends_refl x⟩
                  rw [lookupKey_assignKey_ne _ _ _ _ hk',
                    lookupKey_append_single_ne _ _ _ _ hk']
                  exact hx
              exact extends_trans (ih rest _ r hszrest h) hmid

/-- Lemma B for C3: every key-path of the default layout leads somewhere
in the merged result — nested defaults are merged key-by-key, never
dropped wholesale. -/
theorem setDefaultsItems_default_paths (items : List (String × JValue))
    (u r : JValue) (h : setDefaultsItems items u = .ok r)
    (k : String) (p : List String) (w : JValue)
    (hp : getPath (.obj items) (k :: p) = some w) :
    (getPath r (k :: p)).isSome = true := by
  suffices hmain : ∀ n (items : List (String × JValue)) (u r : JValue),
      sizeOf items < n → setDefaultsItems items u = .ok r →
      ∀ k p w, getPath (.obj items) (k :: p) = some w →
      (getPath r (k :: p)).isSome = true by
    exact hmain (sizeOf items + 1) items u r (Nat.lt_succ_self _) h k p w hp
  intro n
  induction n with
  | zero =>
    intro items u r hsize
    exact absurd hsize (Nat.not_lt_zero _)
  | succ n ih =>
    intro items u r hsize h k p w hp
    match items with
    | [] => simp [getPath, lookupKey] at hp
    | (k₀, v₀) :: rest =>
      have hszrest : sizeOf rest < n := by
        have : sizeOf ((k₀, v₀) :: rest) < n + 1 := hsize
        simp only [List.cons.sizeOf_spec, Prod.mk.sizeOf_spec] at this
        omega
      rcases u with s | l | uitems
      · simp [setDefaultsItems] at h
      · simp [setDefaultsItems] at h
      · by_cases hkk : k = k₀
        · subst hkk
          have hp' : getPath v₀ p = some w := by
            simpa [getPath, lookupKey] using hp
          cases hlk : lookupKey uitems k with
          | some wu =>
            rcases v₀ with s | l | vitems
            · cases p with
              | cons k₂ p₂ => simp [getPath] at hp'
              | nil =>
                simp only [setDefaultsItems, hlk] at h
                apply extends_isSome (setDefaultsItems_extends rest _ r h)
                simp [getPath, hlk]
            · cases p with
              | cons k₂ p₂ => simp [getPath] at hp'
              | nil =>
                simp only [setDefaultsItems, hlk] at h
                apply extends_isSome (setDefaultsItems_extends rest _ r h)
                simp [getPath, hlk]
            · have hszv : sizeOf vitems < n := by
                have : sizeOf ((k, JValue.obj vitems) :: rest) < n + 1 := hsize
                simp only [List.cons.sizeOf_spec, Prod.mk.sizeOf_spec,
                  JValue.obj.sizeOf_spec] at this
                omega
              simp only [setDefaultsItems, hlk, Bind.bind] at h
              cases hin : setDefaultsItems vitems wu with
              | error e =>
                rw [hin] at h
                simp [Except.bind] at h
              | ok m =>
                rw [hin] at h
                simp only [Except.bind] at h
                apply extends_isSome (setDefaultsItems_extends rest _ r h)
                cases p with
                | nil => simp [getPath, lookupKey_assignKey_self]
                | cons k₂ p₂ =>
                  have hinner : (getPath m (k₂ :: p₂)).isSome = true :=
                    ih vitems wu m hszv hin k₂ p₂ w hp'
                  simp only [getPath, lookupKey_assignKey_self]
                  exact hinner
          | none =>
            rcases v₀ with s | l | vitems
            · cases p with
              | cons k₂ p₂ => simp [getPath] at hp'
              | nil =>
                simp only [setDefaultsItems, hlk] at h
                apply extends_isSome (setDefaultsItems_extends rest _ r h)
                simp [getPath, lookupKey_append, hlk, lookupKey]
            · cases p with
              | cons k₂ p₂ => simp [getPath] at hp'
              | nil =>
                simp only [setDefaultsItems, hlk] at h
                apply extends_isSome (setDefaultsItems_extends rest _ r h)
                simp [getPath, lookupKey_append, hlk, lookupKey]
            · have hszv : sizeOf vitems < n := by
                have : sizeOf ((k, JValue.obj vitems) :: rest) < n + 1 := hsize
                simp only [List.cons.sizeOf_spec, Prod.mk.sizeOf_spec,
                  JValue.obj.sizeOf_spec] at this
                omega
              simp only [setDefaultsItems, hlk, Bind.bind] at h
              cases hin : setDefaultsItems vitems (.obj vitems) with
              | error e =>
                rw [hin] at h
                simp [Except.bind] at h
              | ok m =>
                rw [hin] at h
                simp only [Except.bind] at h
                apply extends_isSome (setDefaultsItems_extends rest _ r h)
                cases p with
                | nil => simp [getPath, lookupKey_assignKey_self]
                | cons k₂ p₂ =>
                  have hinner : (getPath m (k₂ :: p₂)).isSome = true :=
                    ih vitems (.obj vitems) m hszv hin k₂ p₂ w hp'
                  simp only [getPath, lookupKey_assignKey_self]
                  exact hinner
        · have hp' : getPath (.obj rest) (k :: p) = some w := by
            simpa [getPath, lookupKey, Ne.symm hkk] using hp
          cases hlk : lookupKey uitems k₀ with
          | some wu =>
            rcases v₀ with s | l | vitems
            · simp only [setDefaultsItems, hlk] at h
              exact ih rest _ r hszrest h k p w hp'
            · simp only [setDefaultsItems, hlk] at h
              exact ih rest _ r hszrest h k p w hp'
            · simp only [setDefaultsItems, hlk, Bind.bind] at h
              cases hin : setDefaultsItems vitems wu with
              | error e =>
                rw [hin] at h
                simp [Except.bind] at h
              | ok m =>
                rw [hin] at h
                simp only [Except.bind] at h
                exact ih rest _ r hszrest h k p w hp'
          | none =>
            rcases v₀ with s | l | vitems
            · simp only [setDefaultsItems, hlk] at h
              exact ih rest _ r hszrest h k p w hp'
            · simp only [setDefaultsItems, hlk] at h
              exact ih rest _ r hszrest h k p w hp'
            · simp only [setDefaultsItems, hlk, Bind.bind] at h
              cases hin : setDefaultsItems vitems (.obj vitems) with
              | error e =>
                rw [hin] at h
                simp [Except.bind] at h
              | ok m =>
                rw [hin] at h
                simp only [Except.bind] at h
                exact ih rest _ r hszrest h k p w hp'

/-- C3: whenever the merge succeeds, every key-path of the default is
present in the result (nested mappings are merged key-by-key, never
replaced wholesale), and every key-path of the user is present with every
non-mapping user value surviving unchanged (user precedence at every
nesting depth). -/
theorem merge_precedence (d u r : JValue) (h : setDefaults d u = .ok r) :
    (∀ p v, getPath d p = some v → (getPath r p).isSome = true) ∧
    (∀ p v, getPath u p = some v →
      ∃ w, getPath r p = some w ∧ (v.isObj = false → w = v)) := by
  rcases d with s | l | ditems
  · simp [setDefaults] at h
  · simp [setDefaults] at h
  · have h' : setDefaultsItems ditems u = .ok r := h
    constructor
    · intro p v hp
      cases p with
      | nil => simp [getPath]
      | cons k q => exact setDefaultsItems_default_paths ditems u r h' k q v hp
    · intro p v hp
      exact setDefaultsItems_extends ditems u r h' p v hp

/-- Witness for `merge_precedence` at a concrete input: merging default
`{"a": "d1", "b": "d2"}` under user `{"a": "u1"}` keeps the user's leaf
at `"a"`. -/
theorem merge_precedence_witness :
    ∃ w, getPath (.obj [("a", .str "u1"), ("b", .str "d2")]) ["a"]
        = some w ∧ ((JValue.str "u1").isObj = false → w = .str "u1") :=
  (merge_precedence (.obj [("a", .str "d1"), ("b", .str "d2")])
    (.obj [("a", .str "u1")]) (.obj [("a", .str "u1"), ("b", .str "d2")])
    rfl).2 ["a"] (.str "u1") rfl

/-! ## C8: directory expansion in the path resolver -/

theorem lookupKey_eq_none_of_contains_false {α : Type}
    {l : List (String × α)} {k : String} (h : containsKey l k = false) :
    lookupKey l k = none := by
  induction l with
  | nil => rfl
  | cons kv rest ih =>
    obtain ⟨a, b⟩ := kv
    simp only [containsKey, Bool.or_eq_false_iff] at h
    have ha : a ≠ k := by simpa using h.1
    simp [lookupKey, ha, ih h.2]

theorem containsKey_setdefaultKey_ne {α : Type} (l : List (String × α))
    (k k' : String) (v : α) (h : k ≠ k') :
    containsKey (setdefaultKey l k' v) k = containsKey l k := by
  unfold setdefaultKey
  split
  · rfl
  · rw [containsKey_append]
    simp [containsKey, Ne.symm h]

theorem containsKey_assignKey_ne {α : Type} (l : List (String × α))
    (k k' : String) (v : α) (h : k ≠ k') :
    containsKey (assignKey l k' v) k = containsKey l k := by
  induction l with
  | nil => simp [assignKey, containsKey, Ne.symm h]
  | cons kv rest ih =>
    obtain ⟨a, b⟩ := kv
    by_cases ha : a = k'
    · subst ha
      simp [assignKey, containsKey]
    · simp [assignKey, containsKey, ha, ih]

/-- Keys not mentioned in the remaining input keep their accumulated
value through the rest of the `__expand_paths` loop. -/
theorem expandPathsAux_preserves (fs : FS) (cwd base : String)
    (rest : List (String × JValue)) (acc out : List (String × JValue))
    (k : String) (h : expandPathsAux fs cwd base acc rest = .ok out)
    (hk : ∀ kv ∈ rest, kv.1 ≠ k) :
    lookupKey out k = lookupKey acc k := by
  induction rest generalizing acc with
  | nil =>
    cases h
    rfl
  | cons kv rest ih =>
    obtain ⟨key, v⟩ := kv
    have hkey : key ≠ k := hk (key, v) (List.mem_cons_self _ _)
    have hkrest : ∀ kv ∈ rest, kv.1 ≠ k :=
      fun kv hm => hk kv (List.mem_cons_of_mem _ hm)
    rcases v with p | l | vitems
    · by_cases hp : p = ""
      · subst hp
        simp [expandPathsAux] at h
        rw [ih _ h hkrest, lookupKey_setdefaultKey_ne _ _ _ _ (Ne.symm hkey)]
      · simp only [expandPathsAux, if_neg hp] at h
        cases hdir : fs.isdir (resolvePath cwd base p)
              && !(key == "report_dir") with
        | false =>
          rw [hdir] at h
          simp only [Bool.false_eq_true, if_false] at h
          rw [ih _ h hkrest, lookupKey_setdefaultKey_ne _ _ _ _ (Ne.symm hkey)]
        | true =>
          rw [hdir] at h
          simp only [if_true] at h
          cases hemp : ((fs.listdir (resolvePath cwd base p)).map
              (fun f => joinTwo (resolvePath cwd base p) f)).isEmpty with
          | true =>
            rw [hemp] at h
            simp only [if_true] at h
            rw [ih _ h hkrest, lookupKey_assignKey_ne _ _ _ _ (Ne.symm hkey),
              lookupKey_setdefaultKey_ne _ _ _ _ (Ne.symm hkey)]
          | false =>
            rw [hemp] at h
            simp only [Bool.false_eq_true, if_false] at h
            rw [ih _ h hkrest, lookupKey_assignKey_ne _ _ _ _ (Ne.symm hkey),
              lookupKey_setdefaultKey_ne _ _ _ _ (Ne.symm hkey)]
    · simp only [expandPathsAux, Bind.bind] at h
      cases hmm : l.mapM (resolveListElem cwd base) with
      | error e =>
        rw [hmm] at h
        simp [Except.bind] at h
      | ok rs =>
        rw [hmm] at h
        simp only [Except.bind] at h
        rw [ih _ h hkrest, lookupKey_assignKey_ne _ _ _ _ (Ne.symm hkey)]
    · simp [expandPathsAux] at h

/-- Main lemma for C8: in a duplicate-free paths dict, a non-empty
string-valued entry resolves to `expandedPathValue`. -/
theorem expandPathsAux_lookup (fs : FS) (cwd base : String)
    (input : List (String × JValue)) (acc out : List (String × JValue))
    (k p : String) (hnd : (input.map Prod.fst).Nodup)
    (hacc : containsKey acc k = false)
    (hmem : (k, .str p) ∈ input) (hne : p ≠ "")
    (h : expandPathsAux fs cwd base acc input = .ok out) :
    lookupKey out k = some (expandedPathValue fs cwd base k p) := by
  induction input generalizing acc with
  | nil => simp at hmem
  | cons kv rest ih =>
    obtain ⟨key, v⟩ := kv
    have hndrest : (rest.map Prod.fst).Nodup :=
      (List.nodup_cons.mp (by simpa using hnd)).2
    have hkeyrest : key ∉ rest.map Prod.fst :=
      (List.nodup_cons.mp (by simpa using hnd)).1
    rcases List.mem_cons.mp hmem with he | hr
    · -- the head is the entry in question
      cases he
      have hkrest : ∀ kv ∈ rest, kv.1 ≠ k := by
        intro kv hm hekv
        exact hkeyrest (hekv ▸ List.mem_map.mpr ⟨kv, hm, rfl⟩)
      have hsetd : setdefaultKey acc k (.str (resolvePath cwd base p))
          = acc ++ [(k, .str (resolvePath cwd base p))] := by
        simp [setdefaultKey, hacc]
      have hlacc : lookupKey acc k = none :=
        lookupKey_eq_none_of_contains_false hacc
      simp only [expandPathsAux, if_neg hne] at h
      cases hdir : fs.isdir (resolvePath cwd base p)
            && !(k == "report_dir") with
      | false =>
        rw [hdir] at h
        simp only [Bool.false_eq_true, if_false] at h
        rw [expandPathsAux_preserves fs cwd base rest _ out k h hkrest,
          hsetd, lookupKey_append, hlacc]
        simp only [expandedPathValue, hdir, Bool.false_eq_true, if_false]
        simp [lookupKey]
      | true =>
        rw [hdir] at h
        simp only [if_true] at h
        cases hemp : ((fs.listdir (resolvePath cwd base p)).map
            (fun f => joinTwo (resolvePath cwd base p) f)).isEmpty with
        | true =>
          rw [hemp] at h
          simp only [if_true] at h
          rw [expandPathsAux_preserves fs cwd base rest _ out k h hkrest,
            lookupKey_assignKey_self]
          have hld : (fs.listdir (resolvePath cwd base p)).isEmpty = true := by
            simpa [List.isEmpty_iff] using hemp
          simp [expandedPathValue, hdir, hld]
        | false =>
          rw [hemp] at h
          simp only [Bool.false_eq_true, if_false] at h
          rw [expandPathsAux_preserves fs cwd base rest _ out k h hkrest,
            lookupKey_assignKey_self]
          have hld : (fs.listdir (resolvePath cwd base p)).isEmpty = false := by
            cases hld' : (fs.listdir (resolvePath cwd base p)).isEmpty
            · rfl
            · rw [show fs.listdir (resolvePath cwd base p) = [] by
                simpa [List.isEmpty_iff] using hld'] at hemp
              simp at hemp
          simp [expandedPathValue, hdir, hld]
    · -- the entry in question sits in the tail
      have hkne : key ≠ k := by
        intro he
        exact hkeyrest (he ▸ List.mem_map.mpr ⟨(k, .str p), hr, rfl⟩)
      rcases v with q | l | vitems
      · by_cases hq : q = ""
        · subst hq
          simp [expandPathsAux] at h
          exact ih _ hndrest
            (by rw [containsKey_setdefaultKey_ne _ _ _ _ (Ne.symm hkne)]
                exact hacc) hr h
        · simp only [expandPathsAux, if_neg hq] at h
          cases hdir : fs.isdir (resolvePath cwd base q)
                && !(key == "report_dir") with
          | false =>
            rw [hdir] at h
            simp only [Bool.false_eq_true, if_false] at h
            exact ih _ hndrest
              (by rw [containsKey_setdefaultKey_ne _ _ _ _ (Ne.symm hkne)]
                  exact hacc) hr h
          | true =>
            rw [hdir] at h
            simp only [if_true] at h
            cases hemp : ((fs.listdir (resolvePath cwd base q)).map
                (fun f => joinTwo (resolvePath cwd base q) f)).isEmpty with
            | true =>
              rw [hemp] at h
              simp only [if_true] at h
              exact ih _ hndrest
                (by rw [containsKey_assignKey_ne _ _ _ _ (Ne.symm hkne),
                      containsKey_setdefaultKey_ne _ _ _ _ (Ne.symm hkne)]
                    exact hacc) hr h
            | false =>
              rw [hemp] at h
              simp only [Bool.false_eq_true, if_false] at h
              exact ih _ hndrest
                (by rw [containsKey_assignKey_ne _ _ _ _ (Ne.symm hkne),
                      containsKey_setdefaultKey_ne _ _ _ _ (Ne.symm hkne)]
                    exact hacc) hr h
      · simp only [expandPathsAux, Bind.bind] at h
        cases hmm : l.mapM (resolveListElem cwd base) with
        | error e =>
          rw [hmm] at h
          simp [Except.bind] at h
        | ok rs =>
          rw [hmm] at h
          simp only [Except.bind] at h
          exact ih _ hndrest
            (by rw [containsKey_assignKey_ne _ _ _ _ (Ne.symm hkne)]
                exact hacc) hr h
      · simp [expandPathsAux] at h

/-- C8: in a duplicate-free paths mapping, a non-empty string-valued
entry whose resolved absolute path is an existing directory and whose
logical name is not `report_dir` resolves to the list of absolute paths
of the directory's entries in filesystem listing order — or to the bare
directory path when the listing is empty; the `report_dir` key, and any
entry whose resolved path is not a directory, keeps the single resolved
path. -/
theorem expandPaths_directory_case (fs : FS) (cwd base : String)
    (input out : List (String × JValue)) (k p : String)
    (hnd : (input.map Prod.fst).Nodup)
    (hmem : (k, .str p) ∈ input) (hne : p ≠ "")
    (hok : expandPaths fs cwd input base = .ok out) :
    (fs.isdir (resolvePath cwd base p) = true → k ≠ "report_dir" →
      lookupKey out k = some (
        if (fs.listdir (resolvePath cwd base p)).isEmpty then
          .str (resolvePath cwd base p)
        else .lst (((fs.listdir (resolvePath cwd base p)).map
          (fun f => joinTwo (resolvePath cwd base p) f)).map JValue.str))) ∧
    (k = "report_dir" →
      lookupKey out k = some (.str (resolvePath cwd base p))) ∧
    (fs.isdir (resolvePath cwd base p) = false →
      lookupKey out k = some (.str (resolvePath cwd base p))) := by
  have hmain := expandPathsAux_lookup fs cwd base input [] out k p hnd rfl
    hmem hne hok
  refine ⟨?_, ?_, ?_⟩
  · intro hdir hnr
    rw [hmain]
    have hb : (fs.isdir (resolvePath cwd base p)
        && !(k == "report_dir")) = true := by
      simp [hdir, hnr]
    simp [expandedPathValue, hb]
  · intro hkr
    rw [hmain]
    subst hkr
    simp [expandedPathValue]
  · intro hdir
    rw [hmain]
    simp [expandedPathValue, hdir]

/-- Witness for `expandPaths_directory_case`: a directory holding `f1`
and `f2` expands to the two absolute file paths, and the same path under
the `report_dir` key stays a single path. -/
theorem expandPaths_directory_case_witness :
    lookupKey ((expandPaths
      ⟨fun d => d == "/base/static", fun d => if d == "/base/static"
        then ["f1", "f2"] else []⟩
      "/cwd" [("css_styles", .str "static")] "/base").toOption.getD [])
      "css_styles"
      = some (.lst [.str "/base/static/f1", .str "/base/static/f2"]) := by
  have h := (expandPaths_directory_case
    ⟨fun d => d == "/base/static", fun d => if d == "/base/static"
      then ["f1", "f2"] else []⟩
    "/cwd" "/base" [("css_styles", .str "static")]
    [("css_styles", .lst [.str "/base/static/f1", .str "/base/static/f2"])]
    "css_styles" "static" (by simp) (by simp) (by simp) rfl).1 rfl
    (by simp)
  simpa using h

/-! ## C4: absoluteness of merged paths -/

/-- C4 (failing input): configured from keyword arguments (no layout
file), the merged layout keeps the kwargs-supplied relative path
`rel.sqlite` unexpanded, while the packaged default's path does get made
absolute: in `Report.__get_layout`, `zip(layouts, bases)` pairs the two
layouts `[default, kwargs]` with the single base `[dirname(__file__)]`
and silently drops the kwargs layout, so its paths are never passed
through `__expand_paths`. -/
theorem kwargs_paths_stay_relative :
    getLayout fsEmpty "/cwd"
      (.obj [("paths", .obj [("database", .str "db.sqlite")])]) "/pkg"
      none (.obj [("paths", .obj [("database", .str "rel.sqlite")])])
      = .ok (.obj [("paths", .obj [("database", .str "rel.sqlite")])]) ∧
    isAbs "rel.sqlite" = false ∧
    resolvePath "/cwd" "/pkg" "db.sqlite" = "/pkg/db.sqlite" ∧
    isAbs "/pkg/db.sqlite" = true :=
  ⟨rfl, rfl, rfl, rfl⟩

end DBReport
